import Mathlib

/-!
Verification development for the additive chromatography model (`achrom.py`).

The source module has three core functions:

* `get_RCs` (the calibrator): builds a design matrix from per-peptide amino-acid
  compositions, optionally appends two terminal normalizing rows, solves a
  least-squares system, unpacks per-category retention coefficients and the
  constant term, and (in terminal mode) infers missing terminal coefficients by
  a secondary bivariate regression.
* `get_RCs_vary_lcf` (the optimizer): a coarse-to-fine grid search over the
  length-correction factor, scoring each candidate model by the correlation
  coefficient between observed and predicted retention times.
* `calculate_RT` (the predictor): applies a fitted model to a peptide.

Numbers are modelled by `ℚ`.  The collaborators that live outside this module
(`numpy.log`, `numpy.linalg.lstsq`, `auxiliary.linear_regression`, and the
composition featurizer `parser.amino_acid_composition` / `peptide_length`) are
modelled as explicit parameters or spec-modelled definitions; the achrom code
itself is embedded faithfully.

Category labels are modelled as lists of characters (the character content of
the Python strings), so that the string-prefix tricks of the source
(`startswith('nterm')`, `aa[1:].startswith('term')`, `'nterm' + aa`) become
list operations.
-/

/- The Batteries rational-number operations are `@[irreducible]`, which stops
`decide`/`rfl` from evaluating the concrete example computations below; the
definitions are mathematically ordinary, so we restore default reducibility
for kernel evaluation. -/
set_option allowUnsafeReducibility true in
attribute [semireducible] Rat.add Rat.mul Rat.sub Rat.div Rat.inv Rat.neg

namespace achrom

/-- A category label: the character content of a Python string label. -/
abbrev Label : Type := List Char

/-- The characters of `'nterm'`. -/
def ntermL : Label := ['n', 't', 'e', 'r', 'm']

/-- The characters of `'cterm'`. -/
def ctermL : Label := ['c', 't', 'e', 'r', 'm']

/-- The characters of `'term'`. -/
def termL : Label := ['t', 'e', 'r', 'm']

/-- `startsW p a` models Python `a.startswith(p)`. -/
def startsW : Label → Label → Bool
  | [], _ => true
  | _ :: _, [] => false
  | p :: ps, a :: as => p == a && startsW ps as

/-- Models the test `not aa[1:].startswith('term')` used by `get_RCs` to
recognize internal (non-terminal) category labels. -/
def isInternal (a : Label) : Bool := !(startsW termL (a.drop 1))

/-- Association-list lookup, modelling Python dict lookup for the
string-keyed coefficient dictionaries. -/
def alookup : List (Label × ℚ) → Label → Option ℚ
  | [], _ => none
  | (k, v) :: t, a => if k = a then some v else alookup t a

/-- Modelled from the spec: the composition featurizer's terminal tagging of
the first token (`parser.amino_acid_composition` is not under `src/`; the spec
says the featurizer optionally splits the first/last token into distinguished
terminal categories, the terminal label being the internal label prefixed with
the terminal marker). -/
def tagFirst : List Label → List Label
  | [] => []
  | a :: t => (ntermL ++ a) :: t

/-- Modelled from the spec: terminal tagging of the last token (see
`tagFirst`). -/
def tagLast : List Label → List Label
  | [] => []
  | [a] => [ctermL ++ a]
  | a :: t => a :: tagLast t

/-- Modelled from the spec: `featurize(sequence, terminalMode, alphabet)`.
`parser.amino_acid_composition(peptide, False, term_aa, labels=labels)` is not
under `src/`; per the spec it converts a token sequence into a mapping from
category label to count (here represented by the tagged token list itself,
with keys `pd.dedup` and counts `pd.count`), fails when a token is not drawn
from the configured alphabet, and in terminal mode splits the first/last token
into distinguished terminal categories. -/
def composition (term_aa : Bool) (labels : List Label) (tokens : List Label) :
    Option (List Label) :=
  if ∀ t ∈ tokens, t ∈ labels then
    some (if term_aa then tagLast (tagFirst tokens) else tokens)
  else none

/-- Modelled from the spec: `length(compositionVector)`
(`parser.peptide_length` is not under `src/`; per the spec it returns the
count of residues of the composition, i.e. the sum of the counts). -/
def peptide_length (pd : List Label) : ℕ :=
  (pd.dedup.map fun a => pd.count a).sum

/-- The fitted coefficient model: `RC_dict['aa']`, `RC_dict['const']`,
`RC_dict['lcf']`. -/
structure RCdict where
  aa : List (Label × ℚ)
  const : ℚ
  lcf : ℚ
deriving DecidableEq

/-- Modelled from the spec: the type of the external bivariate
linear-regression primitive (`auxiliary.linear_regression` is not under
`src/`; per the spec it returns slope, intercept and the linear correlation
coefficient of two equally long samples).  It is kept abstract as a parameter
of the embedding. -/
def LinReg : Type := List ℚ → List ℚ → ℚ × ℚ × ℚ

/-- The type of the external least-squares solver (`numpy.linalg.lstsq` is a
third-party library dependency; the spec treats it as a collaborator
"accepting a matrix and target vector and returning a solution vector").
`none` models the solver raising on a malformed system. -/
def Lstsq : Type := List (List ℚ) → List ℚ → Option (List ℚ)

/-- The internal keys of a model's `aa` dict: the list comprehension
`[aa for aa in RC_dict['aa'] if not (aa.startswith('cterm') or
aa.startswith('nterm'))]` from `calculate_RT`. -/
def internalKeys (R : RCdict) : List Label :=
  (R.aa.map Prod.fst).filter fun a => !(startsW ctermL a || startsW ntermL a)

/-- The terminal-mode detection of `calculate_RT`: scan the model's keys for a
`nterm`/`cterm` prefix. -/
def termDetect (R : RCdict) : Bool :=
  (R.aa.map Prod.fst).any fun a => startsW ntermL a || startsW ctermL a

/-- The accumulation loop of `calculate_RT`:
`for aa in peptide_dict: RT += peptide_dict[aa] * RC_dict['aa'][aa]`, iterating
over the composition's keys; `none` models the `KeyError` when a category is
absent from the model. -/
def sumOver (pd : List Label) (aaL : List (Label × ℚ)) : List Label → Option ℚ
  | [] => some 0
  | a :: rest =>
    match alookup aaL a, sumOver pd aaL rest with
    | some c, some s => some ((pd.count a : ℚ) * c + s)
    | _, _ => none

/-- `calculate_RT(peptide, RC_dict)` from the source, parameterized by the
logarithm `ln` (the library function `numpy.log`, applied to the composition
length). -/
def calculate_RT (ln : ℕ → ℚ) (peptide : List Label) (R : RCdict) : Option ℚ :=
  match composition (termDetect R) (internalKeys R) peptide with
  | none => none
  | some peptide_dict =>
    match sumOver peptide_dict R.aa peptide_dict.dedup with
    | none => none
    | some s =>
      some (s * (1 + R.lcf * ln (peptide_length peptide_dict)) + R.const)

/-- The sum, over the categories of a composition, of the category's count
times the model's coefficient for it (the claim-side reading of the predictor's
accumulation). -/
def compDot (pd : List Label) (aaL : List (Label × ℚ)) : ℚ :=
  (pd.dedup.map fun a => (pd.count a : ℚ) * ((alookup aaL a).getD 0)).sum

/-- The list of compositions `peptide_dicts` built at the top of `get_RCs`
(the list comprehension over `amino_acid_composition`); `none` models the
featurizer raising on any peptide. -/
def compsOf (term_aa : Bool) (labels : List Label) :
    List (List Label) → Option (List (List Label))
  | [] => some []
  | p :: ps =>
    match composition term_aa labels p, compsOf term_aa labels ps with
    | some c, some cs => some (c :: cs)
    | _, _ => none

/-- One design-matrix row of `get_RCs`: for every detected category, its count
in this peptide times `(1.0 + length_correction_factor * log(peptide_length))`,
with the trailing `1.0` free term. -/
def peptideRow (ln : ℕ → ℚ) (lcf : ℚ) (detected : List Label)
    (pd : List Label) : List ℚ :=
  (detected.map fun aa =>
    (pd.count aa : ℚ) * (1 + lcf * ln (peptide_length pd))) ++ [1]

/-- One normalizing row appended by `get_RCs` in terminal mode: `+1` for every
detected label of this terminus, `-1` for every detected label whose
terminus-tagged counterpart is also detected, `0` elsewhere, with a trailing
`0` for the free term. -/
def normRow (term_label : Label) (detected : List Label) : List ℚ :=
  (detected.map fun aa =>
    if startsW term_label aa then (1 : ℚ)
    else if (term_label ++ aa) ∈ detected then -1
    else 0) ++ [0]

/-- `undefined_term_RCs` of `get_RCs`: internal labels of the coefficient dict
whose terminus-tagged counterpart is absent from it. -/
def undefinedTermRCs (term_label : Label) (d : List (Label × ℚ)) : List Label :=
  (d.map Prod.fst).filter fun a =>
    isInternal a && (alookup d (term_label ++ a)).isNone

/-- `defined_term_RCs` of `get_RCs`: internal labels of the coefficient dict
whose terminus-tagged counterpart is present in it. -/
def definedTermRCs (term_label : Label) (d : List (Label × ℚ)) : List Label :=
  (d.map Prod.fst).filter fun a =>
    isInternal a && (alookup d (term_label ++ a)).isSome

/-- The call `auxiliary.linear_regression([RC_dict['aa'][aa] for aa in
defined_term_RCs], [RC_dict['aa'][term_label+aa] for aa in defined_term_RCs])`
of the inference phase. -/
def inferReg (lr : LinReg) (term_label : Label) (d : List (Label × ℚ)) :
    ℚ × ℚ × ℚ :=
  lr ((definedTermRCs term_label d).map fun a => (alookup d a).getD 0)
    ((definedTermRCs term_label d).map fun a =>
      (alookup d (term_label ++ a)).getD 0)

/-- One terminus of the terminal-coefficient inference phase of `get_RCs`:
if no terminal coefficient is missing the dict is left unchanged (`continue`);
otherwise a bivariate regression is fitted on the labels having both
coefficients and every missing terminal coefficient is filled with
`a * RC_dict['aa'][aa] + b`. -/
def inferPass (lr : LinReg) (term_label : Label) (d : List (Label × ℚ)) :
    List (Label × ℚ) :=
  if undefinedTermRCs term_label d = [] then d
  else
    d ++ (undefinedTermRCs term_label d).map fun a =>
      (term_label ++ a,
       (inferReg lr term_label d).1 * (alookup d a).getD 0 +
         (inferReg lr term_label d).2.1)

/-- `detected_amino_acids` of `get_RCs`: the set of categories observed in
the sample set (enumerated here in the order `dedup` produces; the spec leaves
the enumeration order unconstrained as long as it is used consistently). -/
def detectedOf (cs : List (List Label)) : List Label := cs.flatten.dedup

/-- `composition_array` of `get_RCs`: one `peptideRow` per sample, followed in
terminal mode by the two normalizing rows. -/
def matrixOf (ln : ℕ → ℚ) (lcf : ℚ) (term_aa : Bool)
    (cs : List (List Label)) : List (List ℚ) :=
  (cs.map (peptideRow ln lcf (detectedOf cs))) ++
    (if term_aa then
      [normRow ntermL (detectedOf cs), normRow ctermL (detectedOf cs)]
     else [])

/-- The caller's `RTs` list just before the solve: in terminal mode the two
zero constraint targets have been appended to it. -/
def rhsOf (term_aa : Bool) (RTs : List ℚ) : List ℚ :=
  if term_aa then RTs ++ [(0 : ℚ), 0] else RTs

/-- `get_RCs(peptides, RTs, length_correction_factor, term_aa, labels=labels)`
from the source, parameterized by the library collaborators `ln`, `solver` and
`lr`.  The second component of the result models the state of the caller's
`RTs` list after the call (the source appends the two normalizing targets to
the caller's list before solving and pops them afterwards); the first
component is `none` when the call raises. -/
def get_RCs (ln : ℕ → ℚ) (solver : Lstsq) (lr : LinReg)
    (peptides : List (List Label)) (RTs : List ℚ)
    (length_correction_factor : ℚ) (term_aa : Bool) (labels : List Label) :
    Option RCdict × List ℚ :=
  match compsOf term_aa labels peptides with
  | none => (none, RTs)
  | some peptide_dicts =>
    let detected := detectedOf peptide_dicts
    match solver (matrixOf ln length_correction_factor term_aa peptide_dicts)
        (rhsOf term_aa RTs) with
    | none => (none, rhsOf term_aa RTs)
    | some RCs =>
      let RTs2 :=
        if term_aa then (rhsOf term_aa RTs).dropLast.dropLast
        else rhsOf term_aa RTs
      match RCs.get? detected.length with
      | none => (none, RTs2)
      | some c =>
        let aa0 := detected.zip (RCs.take detected.length)
        let aa1 :=
          if term_aa then inferPass lr ctermL (inferPass lr ntermL aa0)
          else aa0
        (some ⟨aa1, c, length_correction_factor⟩, RTs2)

/-- The predictions `[calculate_RT(peptide, RC_dict) for peptide in peptides]`
computed inside the optimizer's scoring step; `none` models a raising
prediction. -/
def predictAll (ln : ℕ → ℚ) (d : RCdict) : List (List Label) → Option (List ℚ)
  | [] => some []
  | p :: ps =>
    match calculate_RT ln p d, predictAll ln d ps with
    | some r, some rs => some (r :: rs)
    | _, _ => none

/-- Exact-arithmetic `numpy.arange(mn, mx, st)`: the points `mn + k*st` for
`k < ⌈(mx - mn)/st⌉`. -/
def arange (mn mx st : ℚ) : List ℚ :=
  (List.range (⌈(mx - mn) / st⌉.toNat)).map fun (k : ℕ) => mn + (k : ℚ) * st

/-- One candidate evaluation of the optimizer's inner `for` loop: calibrate at
`lcf`, score by the correlation coefficient between `RTs` and the predictions,
and displace the best pair on a strictly greater score.  `none` models a
raising iteration. -/
def evalCand (ln : ℕ → ℚ) (solver : Lstsq) (lr : LinReg)
    (peptides : List (List Label)) (RTs : List ℚ) (term_aa : Bool)
    (labels : List Label) (best : ℚ × Option RCdict) (lcf : ℚ) :
    Option (ℚ × Option RCdict) :=
  match (get_RCs ln solver lr peptides RTs lcf term_aa labels).1 with
  | none => none
  | some d =>
    match predictAll ln d peptides with
    | none => none
    | some preds =>
      if best.1 < (lr RTs preds).2.2 then some ((lr RTs preds).2.2, some d)
      else some best

/-- The inner `for lcf in lcf_grid` loop of the optimizer. -/
def runGrid (ln : ℕ → ℚ) (solver : Lstsq) (lr : LinReg)
    (peptides : List (List Label)) (RTs : List ℚ) (term_aa : Bool)
    (labels : List Label) : List ℚ → ℚ × Option RCdict →
    Option (ℚ × Option RCdict)
  | [], best => some best
  | c :: rest, best =>
    match evalCand ln solver lr peptides RTs term_aa labels best c with
    | none => none
    | some b => runGrid ln solver lr peptides RTs term_aa labels rest b

/-- The state of the optimizer's `while` loop: the current interval, the
current step, the best score so far, and the best model so far (`none` models
the initial empty placeholder dict `{}`). -/
structure LoopSt where
  mn : ℚ
  mx : ℚ
  st : ℚ
  best_r : ℚ
  best : Option RCdict
deriving DecidableEq

/-- One iteration of the optimizer's `while` loop: evaluate the grid, then
re-center the interval around the best factor and recompute the step.  `none`
models a raising iteration (including the `KeyError` on
`best_RC_dict['lcf']` when the best dict is still the empty placeholder). -/
def loopBody (ln : ℕ → ℚ) (solver : Lstsq) (lr : LinReg)
    (peptides : List (List Label)) (RTs : List ℚ) (term_aa : Bool)
    (labels : List Label) (s : LoopSt) : Option LoopSt :=
  match runGrid ln solver lr peptides RTs term_aa labels
      (arange s.mn s.mx ((s.mx - s.mn) / 10)) (s.best_r, s.best) with
  | none => none
  | some (_, none) => none
  | some (r, some d) =>
    some ⟨d.lcf - s.st, d.lcf + s.st,
      ((d.lcf + s.st) - (d.lcf - s.st)) / 10, r, some d⟩

/-- The optimizer's `while step > 0.1` loop, with explicit fuel (the
development proves the fuel used by `get_RCs_vary_lcf` suffices for the guard
to fail, so the fuel-exhaustion branch is never the exit path there). -/
def loopFuel (ln : ℕ → ℚ) (solver : Lstsq) (lr : LinReg)
    (peptides : List (List Label)) (RTs : List ℚ) (term_aa : Bool)
    (labels : List Label) : ℕ → LoopSt → Option LoopSt
  | 0, s => some s
  | n + 1, s =>
    if (1 : ℚ) / 10 < s.st then
      match loopBody ln solver lr peptides RTs term_aa labels s with
      | none => none
      | some s' => loopFuel ln solver lr peptides RTs term_aa labels n s'
    else some s

/-- Fuel sufficient for the loop starting at step `st`: the step is divided by
five each iteration, so `⌈10·st⌉` rounds always reach the `≤ 0.1` guard. -/
def fuelFor (st : ℚ) : ℕ := ⌈10 * st⌉.toNat

/-- The initial loop state of `get_RCs_vary_lcf`: the given interval, the
step `(max_lcf - min_lcf)/10`, the initial best score `-1.1` and the empty
placeholder best dict. -/
def loopInit (mn mx : ℚ) : LoopSt := ⟨mn, mx, (mx - mn) / 10, -11 / 10, none⟩

/-- `get_RCs_vary_lcf(peptides, RTs, term_aa, lcf_range, labels=labels)` from
the source.  The result is `none` when the call raises, `some none` when it
returns the initial empty placeholder dict, and `some (some d)` when it
returns a calibrated model. -/
def get_RCs_vary_lcf (ln : ℕ → ℚ) (solver : Lstsq) (lr : LinReg)
    (peptides : List (List Label)) (RTs : List ℚ) (term_aa : Bool)
    (lcf_range : ℚ × ℚ) (labels : List Label) : Option (Option RCdict) :=
  match loopFuel ln solver lr peptides RTs term_aa labels
      (fuelFor ((lcf_range.2 - lcf_range.1) / 10))
      (loopInit lcf_range.1 lcf_range.2) with
  | none => none
  | some s' => some s'.best

/-- Dot product of two coefficient rows (the action of one matrix row on the
solution vector). -/
def dot (xs ys : List ℚ) : ℚ := (List.zipWith (· * ·) xs ys).sum

/-- The invariant of the optimizer's loop used to bound how far the
re-centered search interval (and hence the best factor) can drift outside
the caller's interval `[lo, hi]`: the interval width is always ten steps, the
step is nonnegative, and interval ends and tracked best stay within the
margin `5/4 · (step₀ - step)`, which grows towards `5/4 · step₀ =
(hi - lo)/8` as the step shrinks. -/
def Jinv (lo hi : ℚ) (s : LoopSt) : Prop :=
  s.mx - s.mn = 10 * s.st ∧ 0 ≤ s.st ∧
  lo - 5 / 4 * ((hi - lo) / 10 - s.st) ≤ s.mn ∧
  s.mx ≤ hi + 5 / 4 * ((hi - lo) / 10 - s.st) ∧
  ∀ d : RCdict, s.best = some d →
    lo - 5 / 4 * ((hi - lo) / 10 - s.st) ≤ d.lcf ∧
    d.lcf ≤ hi + 5 / 4 * ((hi - lo) / 10 - s.st)

/-! ### Concrete collaborator instances and data, used by the closed witness
and counterexample theorems. -/

/-- A logarithm stand-in that is identically zero (all concrete examples using
it have a zero length-correction factor, so the value is irrelevant). -/
def ln0 : ℕ → ℚ := fun _ => 0

/-- A logarithm stand-in with `ln 1 = 0` that grows with its argument. -/
def lnLin : ℕ → ℚ := fun n => (n : ℚ) - 1

/-- A regression stub returning slope 0, intercept 0 and correlation 0. -/
def lr0 : LinReg := fun _ _ => (0, 0, 0)

/-- A regression stub whose correlation score decreases in the first
predicted value. -/
def lrNeg : LinReg := fun _ ys => (0, 0, -(ys.headD 0) / 1000)

/-- A solver stub that reads the first entry of the second matrix row as the
single category coefficient and returns a zero free term. -/
def solverA : Lstsq := fun A _ => some [(A.getD 1 []).getD 0 0, 0]

/-- A solver stub that returns a fixed two-entry solution regardless of the
system's shape. -/
def solver57 : Lstsq := fun _ _ => some [5, 7]

/-- A solver that solves exactly the one-by-one system `[[1]] · x = [1]` and
rejects everything else. -/
def solver11 : Lstsq := fun A b =>
  if A = [[1]] ∧ b = [1] then some [1] else none

/-- A solver stub that returns a fixed four-entry solution. -/
def solver4 : Lstsq := fun _ _ => some [1, 2, 3, 4]

/-- A solver that rejects any system whose row count differs from its target
count (the shape check `numpy.linalg.lstsq` performs) and otherwise returns
the target vector itself. -/
def solverChk : Lstsq := fun A b =>
  if A.length = b.length then some b else none

/-- The exact solution of the terminal-mode system of the round-trip
counterexample. -/
def solC7 : List ℚ := [1, 2, -1, -2, 0]

/-- A solver stub returning `solC7`. -/
def solverC7 : Lstsq := fun _ _ => some solC7

/-- A solver that solves exactly the two-by-two system of the round-trip
witness and rejects everything else. -/
def solver12 : Lstsq := fun A b =>
  if A = [[1, 1], [2, 1]] ∧ b = [1, 2] then some [1, 0] else none

/-- The label `'A'`. -/
def lA : Label := ['A']

/-- The label `'B'`. -/
def lB : Label := ['B']

/-- The label `'C'`. -/
def lC : Label := ['C']

/-- The model of the first doctest of `calculate_RT`:
`{'aa': {'A': 1.1}, 'lcf': 0.0, 'const': 0.1}`. -/
def m1 : RCdict := ⟨[(lA, 11 / 10)], 1 / 10, 0⟩

/-- The model of the second doctest of `calculate_RT`:
`{'aa': {'ntermA': 1.0, 'A': 1.1, 'ctermA': 1.2}, 'lcf': 0.0, 'const': 0.1}`. -/
def m2 : RCdict :=
  ⟨[(ntermL ++ lA, 1), (lA, 11 / 10), (ctermL ++ lA, 12 / 10)], 1 / 10, 0⟩

/-- The peptide `'AA'`. -/
def pAA : List Label := [lA, lA]

/-- The peptide `'AB'`. -/
def pAB : List Label := [lA, lB]

/-- The peptide `'BA'`. -/
def pBA : List Label := [lB, lA]

/-- The peptide `'BB'`. -/
def pBB : List Label := [lB, lB]

/-- The model produced by the concrete terminal-mode calibration of the
single sample `'ABC'` with `solver4` and `lr0`. -/
def dABC : RCdict :=
  ⟨[(ntermL ++ lA, 1), (lB, 2), (ctermL ++ lC, 3),
    (ntermL ++ lB, 0), (ctermL ++ lB, 0)], 4, 0⟩

/-- The terminal-mode compositions of the four length-two peptides
`'AA','AB','BA','BB'`. -/
def csC7 : List (List Label) :=
  [[ntermL ++ lA, ctermL ++ lA], [ntermL ++ lA, ctermL ++ lB],
   [ntermL ++ lB, ctermL ++ lA], [ntermL ++ lB, ctermL ++ lB]]

/-- The model calibrated from the exactly-solvable terminal-mode system of
the round-trip counterexample. -/
def dC7 : RCdict :=
  ⟨[(ntermL ++ lA, 1), (ctermL ++ lA, 2), (ntermL ++ lB, -1),
    (ctermL ++ lB, -2)], 0, 0⟩

/-! ### Helper lemmas -/

theorem tagFirst_length (l : List Label) : (tagFirst l).length = l.length := by
  cases l <;> rfl

theorem tagLast_length : ∀ l : List Label, (tagLast l).length = l.length
  | [] => rfl
  | [_] => rfl
  | a :: b :: t => by
    show (a :: tagLast (b :: t)).length = (a :: b :: t).length
    simp [tagLast_length (b :: t)]

theorem composition_some_length {t : Bool} {labels tokens pd : List Label}
    (h : composition t labels tokens = some pd) : pd.length = tokens.length := by
  unfold composition at h
  split at h
  · split at h
    · injection h with h
      rw [← h, tagLast_length, tagFirst_length]
    · injection h with h
      rw [← h]
  · exact absurd h (by simp)

theorem count_beq_bridge (a : Label) (l : List Label) :
    @List.count Label List.instBEq a l =
      @List.count Label instBEqOfDecidableEq a l := by
  induction l with
  | nil => rfl
  | cons b t ih =>
    rw [@List.count_cons Label List.instBEq a b t,
      @List.count_cons Label instBEqOfDecidableEq a b t, ih]
    by_cases h : b = a
    · subst h; simp
    · simp [h]

theorem peptide_length_eq (pd : List Label) : peptide_length pd = pd.length := by
  unfold peptide_length
  rw [show (List.map (fun a => pd.count a) pd.dedup) =
      (List.map (fun a => @List.count Label instBEqOfDecidableEq a pd) pd.dedup)
    from List.map_congr_left fun a _ => count_beq_bridge a pd]
  exact List.sum_map_count_dedup_eq_length pd

theorem sumOver_sum {pd : List Label} {aaL : List (Label × ℚ)} :
    ∀ {ks : List Label} {s : ℚ}, sumOver pd aaL ks = some s →
      s = (ks.map fun a => (pd.count a : ℚ) * ((alookup aaL a).getD 0)).sum
  | [], s => by
    intro h
    simp [sumOver] at h
    simp [← h]
  | a :: rest, s => by
    intro h
    unfold sumOver at h
    cases hl : alookup aaL a with
    | none => rw [hl] at h; exact absurd h (by simp)
    | some c =>
      rw [hl] at h
      cases hr : sumOver pd aaL rest with
      | none => rw [hr] at h; exact absurd h (by simp)
      | some s' =>
        rw [hr] at h
        simp only [Option.some.injEq] at h
        have := sumOver_sum hr
        simp [← h, this, hl]

theorem calculate_RT_eq {ln : ℕ → ℚ} {peptide : List Label} {R : RCdict}
    {pd : List Label} {s : ℚ}
    (hc : composition (termDetect R) (internalKeys R) peptide = some pd)
    (hs : sumOver pd R.aa pd.dedup = some s) :
    calculate_RT ln peptide R =
      some (s * (1 + R.lcf * ln (peptide_length pd)) + R.const) := by
  unfold calculate_RT
  simp only [hc, hs]

theorem calculate_RT_some {ln : ℕ → ℚ} {peptide : List Label} {R : RCdict}
    {rt : ℚ} (h : calculate_RT ln peptide R = some rt) :
    ∃ pd s, composition (termDetect R) (internalKeys R) peptide = some pd ∧
      sumOver pd R.aa pd.dedup = some s ∧
      rt = s * (1 + R.lcf * ln (peptide_length pd)) + R.const := by
  unfold calculate_RT at h
  cases hc : composition (termDetect R) (internalKeys R) peptide with
  | none => simp only [hc] at h; exact Option.noConfusion h
  | some pd =>
    simp only [hc] at h
    cases hs : sumOver pd R.aa pd.dedup with
    | none => simp only [hs] at h; exact Option.noConfusion h
    | some s =>
      simp only [hs, Option.some.injEq] at h
      exact ⟨pd, s, rfl, hs, h.symm⟩

/-! ### Claims -/

/-- **C1.** For every sequence and every coefficient model, `calculate_RT`
returns `(1 + lcf * ln N) * (sum over the categories of the sequence's
composition of count times the model's coefficient) + const`, where `N` is
the count of internal residues of the sequence (terminal tagging does not
change the token count); and the two doctest cases evaluate to `2.3` and
`3.4` (here exactly, hence within `1e-6`). -/
theorem C1_predict_formula :
    (∀ (ln : ℕ → ℚ) (peptide : List Label) (R : RCdict) (rt : ℚ),
      calculate_RT ln peptide R = some rt →
      ∃ pd, composition (termDetect R) (internalKeys R) peptide = some pd ∧
        rt = (1 + R.lcf * ln peptide.length) * compDot pd R.aa + R.const) ∧
    (∀ ln : ℕ → ℚ, calculate_RT ln pAA m1 = some (23 / 10)) ∧
    (∀ ln : ℕ → ℚ, calculate_RT ln [lA, lA, lA] m2 = some (17 / 5)) := by
  refine ⟨?_, ?_, ?_⟩
  · intro ln peptide R rt h
    obtain ⟨pd, s, hc, hs, hrt⟩ := calculate_RT_some h
    refine ⟨pd, hc, ?_⟩
    have hlen : peptide_length pd = peptide.length := by
      rw [peptide_length_eq, composition_some_length hc]
    rw [hrt, hlen, sumOver_sum hs]
    unfold compDot
    ring
  · intro ln
    have hc : composition (termDetect m1) (internalKeys m1) pAA = some pAA := by
      decide
    have hs : sumOver pAA m1.aa pAA.dedup = some (11 / 5) := by decide
    rw [calculate_RT_eq hc hs]
    have h0 : m1.lcf = 0 := rfl
    have h1 : m1.const = 1 / 10 := rfl
    rw [h0, h1]
    norm_num
  · intro ln
    have hc : composition (termDetect m2) (internalKeys m2) [lA, lA, lA] =
        some [ntermL ++ lA, lA, ctermL ++ lA] := by decide
    have hs : sumOver [ntermL ++ lA, lA, ctermL ++ lA] m2.aa
        ([ntermL ++ lA, lA, ctermL ++ lA] : List Label).dedup =
        some (33 / 10) := by decide
    rw [calculate_RT_eq hc hs]
    have h0 : m2.lcf = 0 := rfl
    have h1 : m2.const = 1 / 10 := rfl
    rw [h0, h1]
    norm_num

/-- Witness for **C1**: the general formula applied at the first doctest
input. -/
theorem C1_predict_formula_witness :
    calculate_RT ln0 pAA m1 = some (23 / 10) ∧
    (∃ pd, composition (termDetect m1) (internalKeys m1) pAA = some pd ∧
      (23 / 10 : ℚ) =
        (1 + m1.lcf * ln0 pAA.length) * compDot pd m1.aa + m1.const) :=
  ⟨by decide, C1_predict_formula.1 ln0 pAA m1 (23 / 10) (by decide)⟩

theorem compsOf_length {term_aa : Bool} {labels : List Label} :
    ∀ {ps : List (List Label)} {cs : List (List Label)},
      compsOf term_aa labels ps = some cs → cs.length = ps.length
  | [], cs => by intro h; simp [compsOf] at h; simp [← h]
  | p :: ps, cs => by
    intro h
    unfold compsOf at h
    cases hc : composition term_aa labels p with
    | none => rw [hc] at h; exact Option.noConfusion h
    | some c =>
      rw [hc] at h
      cases hr : compsOf term_aa labels ps with
      | none => rw [hr] at h; exact Option.noConfusion h
      | some cs' =>
        rw [hr] at h
        injection h with h
        rw [← h]
        simp [compsOf_length hr]

theorem matrixOf_length (ln : ℕ → ℚ) (lcf : ℚ) (term_aa : Bool)
    (cs : List (List Label)) :
    (matrixOf ln lcf term_aa cs).length =
      cs.length + (if term_aa then 2 else 0) := by
  unfold matrixOf
  cases term_aa <;> simp

theorem rhsOf_length (term_aa : Bool) (RTs : List ℚ) :
    (rhsOf term_aa RTs).length = RTs.length + (if term_aa then 2 else 0) := by
  unfold rhsOf
  cases term_aa <;> simp

theorem dropLast_append_singleton {α : Type} (l : List α) (a : α) :
    (l ++ [a]).dropLast = l := by
  simp

theorem rhsOf_restore (term_aa : Bool) (RTs : List ℚ) :
    (if term_aa then (rhsOf term_aa RTs).dropLast.dropLast
     else rhsOf term_aa RTs) = RTs := by
  cases term_aa with
  | false => rfl
  | true =>
    show ((RTs ++ [(0 : ℚ), 0]).dropLast.dropLast) = RTs
    rw [show RTs ++ [(0 : ℚ), 0] = (RTs ++ [0]) ++ [0] by simp,
      dropLast_append_singleton, dropLast_append_singleton]

/-- Inversion of a succeeding `get_RCs` call: the compositions and the solve
succeeded, and the result components are the source's unpacking of them. -/
theorem get_RCs_some {ln : ℕ → ℚ} {solver : Lstsq} {lr : LinReg}
    {peptides : List (List Label)} {RTs : List ℚ} {lcf : ℚ} {term_aa : Bool}
    {labels : List Label} {d : RCdict} {rts' : List ℚ}
    (h : get_RCs ln solver lr peptides RTs lcf term_aa labels =
      (some d, rts')) :
    ∃ cs sol c, compsOf term_aa labels peptides = some cs ∧
      solver (matrixOf ln lcf term_aa cs) (rhsOf term_aa RTs) = some sol ∧
      sol.get? (detectedOf cs).length = some c ∧
      d = ⟨(if term_aa then
              inferPass lr ctermL (inferPass lr ntermL
                ((detectedOf cs).zip (sol.take (detectedOf cs).length)))
            else (detectedOf cs).zip (sol.take (detectedOf cs).length)),
           c, lcf⟩ ∧
      rts' = (if term_aa then (rhsOf term_aa RTs).dropLast.dropLast
              else rhsOf term_aa RTs) := by
  unfold get_RCs at h
  cases hc : compsOf term_aa labels peptides with
  | none =>
    simp only [hc] at h
    exact Option.noConfusion (congrArg Prod.fst h)
  | some cs =>
    simp only [hc] at h
    cases hsol : solver (matrixOf ln lcf term_aa cs) (rhsOf term_aa RTs) with
    | none =>
      simp only [hsol] at h
      exact Option.noConfusion (congrArg Prod.fst h)
    | some sol =>
      simp only [hsol] at h
      cases hg : sol.get? (detectedOf cs).length with
      | none =>
        simp only [hg] at h
        exact Option.noConfusion (congrArg Prod.fst h)
      | some c =>
        simp only [hg, Prod.mk.injEq, Option.some.injEq] at h
        exact ⟨cs, sol, c, rfl, hsol, hg, h.1.symm, h.2.symm⟩

/-- **C3.** On any normal return of `get_RCs` (terminal mode included), the
caller's retention-time list is observably unchanged: the value of the list
after the call equals the value before it, so the appended constraint targets
do not persist in any externally visible collection (the returned model holds
no target collection at all). -/
theorem C3_targets_not_mutated (ln : ℕ → ℚ) (solver : Lstsq) (lr : LinReg)
    (peptides : List (List Label)) (RTs : List ℚ) (lcf : ℚ) (term_aa : Bool)
    (labels : List Label) (d : RCdict) (rts' : List ℚ)
    (h : get_RCs ln solver lr peptides RTs lcf term_aa labels =
      (some d, rts')) : rts' = RTs := by
  obtain ⟨cs, sol, c, _, _, _, _, hr⟩ := get_RCs_some h
  rw [hr, rhsOf_restore]

/-- Witness for **C3**: a concrete terminal-mode calibration returns normally
and leaves the caller's target list `[5]` unchanged. -/
theorem C3_targets_not_mutated_witness :
    get_RCs ln0 solver4 lr0 [[lA, lB, lC]] [(5 : ℚ)] 0 true [lA, lB, lC] =
      (some dABC, ([5] : List ℚ)) ∧
    ([(5 : ℚ)] : List ℚ) = [5] :=
  ⟨by decide,
   C3_targets_not_mutated ln0 solver4 lr0 [[lA, lB, lC]] [(5 : ℚ)] 0 true
     [lA, lB, lC] dABC [5] (by decide)⟩

/-- Counterexample for **C2**.  `get_RCs` performs no precondition checks of
its own.  First conjunct: with a solver that does not inspect shapes, a call
whose sequence count (1) differs from its target count (2) returns a model
normally — so the dimension violation is not detected before (nor
independently of) the numeric solve.  Remaining conjuncts: a sample set whose
single sample has an empty composition detects no categories at all, yet the
call returns normally with an empty coefficient mapping (the system still has
the free-term column, here solved exactly by a shape-checking solver) — there
is no `EmptyAlphabet` failure. -/
theorem C2_counterexample :
    (get_RCs ln0 solver57 lr0 [[lA]] [1, 2] 0 false [lA]).1 =
      some ⟨[(lA, 5)], 7, 0⟩ ∧
    compsOf false [lA] [[]] = some [[]] ∧
    detectedOf [[]] = [] ∧
    (get_RCs ln0 solver11 lr0 [[]] [1] 0 false [lA]).1 =
      some ⟨[], 1, 0⟩ := by
  refine ⟨by decide, by decide, by decide, by decide⟩

/-- **C2 (amended).** `get_RCs` contains no dimension or alphabet checks
itself; a sequence/target count mismatch is only surfaced because the
least-squares collaborator rejects a system whose row count differs from its
target count (as `numpy.linalg.lstsq` does), in which case `get_RCs` fails;
a sample set with no detected categories is not an error at all — the call
returns a model with an empty coefficient mapping. -/
theorem C2_failure_via_solver (ln : ℕ → ℚ) (solver : Lstsq) (lr : LinReg)
    (peptides : List (List Label)) (RTs : List ℚ) (lcf : ℚ) (term_aa : Bool)
    (labels : List Label)
    (hdim : ∀ A b, A.length ≠ b.length → solver A b = none)
    (hne : peptides.length ≠ RTs.length) :
    (get_RCs ln solver lr peptides RTs lcf term_aa labels).1 = none := by
  unfold get_RCs
  cases hc : compsOf term_aa labels peptides with
  | none => rfl
  | some cs =>
    have hlen : (matrixOf ln lcf term_aa cs).length ≠
        (rhsOf term_aa RTs).length := by
      rw [matrixOf_length, rhsOf_length, compsOf_length hc]
      cases term_aa <;> simpa using hne
    simp only [hdim _ _ hlen]

/-- Witness for **C2 (amended)**: with the shape-checking solver, the
mismatched call (one sequence, two targets) fails. -/
theorem C2_failure_via_solver_witness :
    ([[lA]] : List (List Label)).length ≠ ([1, 2] : List ℚ).length ∧
    (get_RCs ln0 solverChk lr0 [[lA]] [1, 2] 0 false [lA]).1 = none :=
  ⟨by decide,
   C2_failure_via_solver ln0 solverChk lr0 [[lA]] [1, 2] 0 false [lA]
     (fun A b h => by simp only [solverChk, if_neg h])
     (by decide)⟩

theorem alookup_isSome_of_mem {d : List (Label × ℚ)} {a : Label}
    (h : a ∈ d.map Prod.fst) : (alookup d a).isSome := by
  induction d with
  | nil => simp at h
  | cons kv t ih =>
    obtain ⟨k, v⟩ := kv
    simp only [List.map_cons, List.mem_cons] at h
    unfold alookup
    by_cases hk : k = a
    · simp [hk]
    · rcases h with h | h
      · exact absurd h.symm hk
      · simp [hk, ih h]

theorem alookup_append_left {d e : List (Label × ℚ)} {a : Label} {v : ℚ}
    (h : alookup d a = some v) : alookup (d ++ e) a = some v := by
  induction d with
  | nil => simp [alookup] at h
  | cons kv t ih =>
    obtain ⟨k, w⟩ := kv
    rw [List.cons_append]
    unfold alookup at h ⊢
    by_cases hk : k = a
    · rw [if_pos hk] at h ⊢; exact h
    · rw [if_neg hk] at h ⊢; exact ih h

theorem alookup_append_isSome_left {d e : List (Label × ℚ)} {a : Label}
    (h : (alookup d a).isSome) : (alookup (d ++ e) a).isSome := by
  obtain ⟨v, hv⟩ := Option.isSome_iff_exists.mp h
  rw [alookup_append_left hv]
  rfl

theorem alookup_append_none {d e : List (Label × ℚ)} {a : Label}
    (h : alookup d a = none) : alookup (d ++ e) a = alookup e a := by
  induction d with
  | nil => rfl
  | cons kv t ih =>
    obtain ⟨k, w⟩ := kv
    rw [List.cons_append]
    have h' : (if k = a then some w else alookup t a) = none := h
    by_cases hk : k = a
    · rw [if_pos hk] at h'; exact Option.noConfusion h'
    · rw [if_neg hk] at h'
      show (if k = a then some w else alookup (t ++ e) a) = alookup e a
      rw [if_neg hk]
      exact ih h'

theorem alookup_map_tagged {t : Label} {f : Label → ℚ} {l : List Label}
    {a : Label} (h : a ∈ l) :
    (alookup (l.map fun x => (t ++ x, f x)) (t ++ a)).isSome := by
  induction l with
  | nil => simp at h
  | cons b bs ih =>
    simp only [List.map_cons]
    unfold alookup
    by_cases hb : b = a
    · simp [hb]
    · have hne : ¬(t ++ b = t ++ a) := fun hh => hb (List.append_cancel_left hh)
      rcases List.mem_cons.mp h with h1 | h1
      · exact absurd h1.symm hb
      · simp [hne, ih h1]

theorem startsW_append_self (p x : Label) : startsW p (p ++ x) = true := by
  induction p with
  | nil => rfl
  | cons c ps ih => simp [startsW, ih]

theorem isInternal_nterm_append (x : Label) :
    isInternal (ntermL ++ x) = false := by
  unfold isInternal
  have h1 : (ntermL ++ x).drop 1 = termL ++ x := rfl
  rw [h1, startsW_append_self]
  rfl

theorem isInternal_cterm_append (x : Label) :
    isInternal (ctermL ++ x) = false := by
  unfold isInternal
  have h1 : (ctermL ++ x).drop 1 = termL ++ x := rfl
  rw [h1, startsW_append_self]
  rfl

theorem inferPass_eq_append (lr : LinReg) (t : Label)
    (d : List (Label × ℚ)) : ∃ ext, inferPass lr t d = d ++ ext := by
  unfold inferPass
  by_cases h : undefinedTermRCs t d = []
  · exact ⟨[], by simp [h]⟩
  · exact ⟨_, by rw [if_neg h]⟩

theorem alookup_inferPass_mono {lr : LinReg} {t : Label}
    {d : List (Label × ℚ)} {a : Label} (h : (alookup d a).isSome) :
    (alookup (inferPass lr t d) a).isSome := by
  obtain ⟨ext, he⟩ := inferPass_eq_append lr t d
  rw [he]
  exact alookup_append_isSome_left h

theorem mem_undefinedTermRCs {t : Label} {d : List (Label × ℚ)} {a : Label}
    (hmem : a ∈ d.map Prod.fst) (hint : isInternal a = true)
    (hnone : alookup d (t ++ a) = none) : a ∈ undefinedTermRCs t d := by
  unfold undefinedTermRCs
  rw [List.mem_filter]
  exact ⟨hmem, by simp [hint, hnone]⟩

theorem inferPass_fills {lr : LinReg} {t : Label} {d : List (Label × ℚ)}
    {a : Label} (hint : isInternal a = true) (hmem : a ∈ d.map Prod.fst) :
    (alookup (inferPass lr t d) (t ++ a)).isSome := by
  unfold inferPass
  by_cases h : undefinedTermRCs t d = []
  · rw [if_pos h]
    cases hd : alookup d (t ++ a) with
    | some v => simp [hd]
    | none =>
      have := mem_undefinedTermRCs hmem hint hd
      rw [h] at this
      simp at this
  · rw [if_neg h]
    cases hd : alookup d (t ++ a) with
    | some v => exact alookup_append_isSome_left (by simp [hd])
    | none =>
      rw [alookup_append_none hd]
      exact alookup_map_tagged (mem_undefinedTermRCs hmem hint hd)

theorem keys_inferPass_internal {lr : LinReg} {t : Label}
    {d : List (Label × ℚ)} {a : Label} (ht : t = ntermL ∨ t = ctermL)
    (h : a ∈ (inferPass lr t d).map Prod.fst) (hint : isInternal a = true) :
    a ∈ d.map Prod.fst := by
  unfold inferPass at h
  by_cases hu : undefinedTermRCs t d = []
  · rw [if_pos hu] at h; exact h
  · rw [if_neg hu, List.map_append] at h
    rcases List.mem_append.mp h with h1 | h1
    · exact h1
    · exfalso
      simp only [List.map_map, List.mem_map] at h1
      obtain ⟨x, _, hx⟩ := h1
      have : isInternal a = false := by
        rw [← hx]
        rcases ht with ht | ht <;> rw [ht]
        · exact isInternal_nterm_append x
        · exact isInternal_cterm_append x
      rw [hint] at this
      exact Bool.noConfusion this

theorem mem_keys_inferPass {lr : LinReg} {t : Label} {d : List (Label × ℚ)}
    {a : Label} (h : a ∈ d.map Prod.fst) :
    a ∈ (inferPass lr t d).map Prod.fst := by
  obtain ⟨ext, he⟩ := inferPass_eq_append lr t d
  rw [he, List.map_append]
  exact List.mem_append_left _ h

/-- Forward equation for a succeeding `get_RCs` call. -/
theorem get_RCs_eq {ln : ℕ → ℚ} {solver : Lstsq} (lr : LinReg)
    {peptides : List (List Label)} {RTs : List ℚ} {lcf : ℚ} {term_aa : Bool}
    {labels : List Label} {cs : List (List Label)} {sol : List ℚ} {c : ℚ}
    (hc : compsOf term_aa labels peptides = some cs)
    (hsol : solver (matrixOf ln lcf term_aa cs) (rhsOf term_aa RTs) = some sol)
    (hg : sol.get? (detectedOf cs).length = some c) :
    get_RCs ln solver lr peptides RTs lcf term_aa labels =
      (some ⟨(if term_aa then
                inferPass lr ctermL (inferPass lr ntermL
                  ((detectedOf cs).zip (sol.take (detectedOf cs).length)))
              else (detectedOf cs).zip (sol.take (detectedOf cs).length)),
             c, lcf⟩, RTs) := by
  unfold get_RCs
  simp only [hc, hsol, hg]
  rw [rhsOf_restore]

/-- **C4.** Whenever the compositions and the least-squares solve succeed
(the solver returning, as `numpy.linalg.lstsq` always does, one entry per
unknown, i.e. one per detected category plus the free term), `get_RCs`
returns a model whose `aa` mapping has an entry for every category label
appearing in any training sample's composition (terminal expansion included
when enabled): the directly estimated entries come from the zip with the
solution vector, and the inference phase only ever adds entries. -/
theorem C4_detected_categories_covered (ln : ℕ → ℚ) (solver : Lstsq)
    (lr : LinReg) (peptides : List (List Label)) (RTs : List ℚ) (lcf : ℚ)
    (term_aa : Bool) (labels : List Label) (cs : List (List Label))
    (sol : List ℚ)
    (hc : compsOf term_aa labels peptides = some cs)
    (hsol : solver (matrixOf ln lcf term_aa cs) (rhsOf term_aa RTs) = some sol)
    (hlen : sol.length = (detectedOf cs).length + 1) :
    ∃ d, get_RCs ln solver lr peptides RTs lcf term_aa labels =
        (some d, RTs) ∧
      ∀ a, (∃ pd ∈ cs, a ∈ pd) → (alookup d.aa a).isSome := by
  have hlt : (detectedOf cs).length < sol.length := by omega
  have hg : sol.get? (detectedOf cs).length =
      some (sol.get ⟨(detectedOf cs).length, hlt⟩) := List.get?_eq_get hlt
  refine ⟨_, get_RCs_eq lr hc hsol hg, ?_⟩
  intro a ha
  obtain ⟨pd, hpd, hapd⟩ := ha
  have hdet : a ∈ detectedOf cs := by
    unfold detectedOf
    rw [List.mem_dedup, List.mem_flatten]
    exact ⟨pd, hpd, hapd⟩
  have hkeys : ((detectedOf cs).zip
      (sol.take (detectedOf cs).length)).map Prod.fst = detectedOf cs := by
    apply List.map_fst_zip
    rw [List.length_take]
    omega
  have h0 : (alookup ((detectedOf cs).zip
      (sol.take (detectedOf cs).length)) a).isSome :=
    alookup_isSome_of_mem (by rw [hkeys]; exact hdet)
  cases term_aa with
  | false => simpa using h0
  | true =>
    simpa using alookup_inferPass_mono (alookup_inferPass_mono h0)

/-- Witness for **C4**: the concrete terminal-mode calibration of `'ABC'`;
the label `'B'` appears in the sample's composition and is in the model. -/
theorem C4_detected_categories_covered_witness :
    (∃ d, get_RCs ln0 solver4 lr0 [[lA, lB, lC]] [(5 : ℚ)] 0 true
        [lA, lB, lC] = (some d, [(5 : ℚ)]) ∧
      ∀ a, (∃ pd ∈ [[ntermL ++ lA, lB, ctermL ++ lC]], a ∈ pd) →
        (alookup d.aa a).isSome) :=
  C4_detected_categories_covered ln0 solver4 lr0 [[lA, lB, lC]] [(5 : ℚ)] 0
    true [lA, lB, lC] [[ntermL ++ lA, lB, ctermL ++ lC]] [1, 2, 3, 4]
    (by decide) (by decide) (by decide)

/-- Counterexample for **C5**.  In the concrete terminal-mode calibration of
the single sample `'ABC'`, the N-terminus has zero internal categories with
both an internal and a directly estimated terminal coefficient (the paired
list is empty), yet the terminus is *not* skipped: the call returns a model
in which the missing coefficient `'ntermB'` is present (filled from the
degenerate regression over the empty paired data), not absent. -/
theorem C5_counterexample :
    definedTermRCs ntermL
      [(ntermL ++ lA, (1 : ℚ)), (lB, 2), (ctermL ++ lC, 3)] = [] ∧
    (get_RCs ln0 solver4 lr0 [[lA, lB, lC]] [(5 : ℚ)] 0 true
      [lA, lB, lC]).1 = some dABC ∧
    alookup dABC.aa (ntermL ++ lB) = some 0 :=
  ⟨by decide, by decide, by decide⟩

/-- **C5 (amended).** With terminal mode enabled, a terminus is skipped only
when *no* terminal coefficient is missing; whenever some are missing they are
always filled (even when zero categories have both coefficients, in which
case the fill uses the regression of the empty paired list).  So after any
normal terminal-mode return, every internal category key of the model has
both its `nterm`- and `cterm`-tagged coefficients present — never absent. -/
theorem C5_terminal_coefficients_filled (ln : ℕ → ℚ) (solver : Lstsq)
    (lr : LinReg) (peptides : List (List Label)) (RTs : List ℚ) (lcf : ℚ)
    (labels : List Label) (d : RCdict) (rts' : List ℚ) (a : Label)
    (h : get_RCs ln solver lr peptides RTs lcf true labels = (some d, rts'))
    (ha : a ∈ d.aa.map Prod.fst) (hint : isInternal a = true) :
    (alookup d.aa (ntermL ++ a)).isSome ∧
      (alookup d.aa (ctermL ++ a)).isSome := by
  obtain ⟨cs, sol, c, hc, hsol, hg, hd, hr⟩ := get_RCs_some h
  have hdaa : d.aa = inferPass lr ctermL (inferPass lr ntermL
      ((detectedOf cs).zip (sol.take (detectedOf cs).length))) := by
    rw [hd]
    rfl
  rw [hdaa] at ha ⊢
  have hmid : a ∈ (inferPass lr ntermL
      ((detectedOf cs).zip (sol.take (detectedOf cs).length))).map Prod.fst :=
    keys_inferPass_internal (Or.inr rfl) ha hint
  have haa0 : a ∈ ((detectedOf cs).zip
      (sol.take (detectedOf cs).length)).map Prod.fst :=
    keys_inferPass_internal (Or.inl rfl) hmid hint
  constructor
  · exact alookup_inferPass_mono (inferPass_fills hint haa0)
  · exact inferPass_fills hint hmid

/-- Witness for **C5 (amended)**: in the `'ABC'` calibration, the internal
key `'B'` ends up with both `'ntermB'` and `'ctermB'` present. -/
theorem C5_terminal_coefficients_filled_witness :
    (alookup dABC.aa (ntermL ++ lB)).isSome ∧
      (alookup dABC.aa (ctermL ++ lB)).isSome :=
  C5_terminal_coefficients_filled ln0 solver4 lr0 [[lA, lB, lC]] [(5 : ℚ)] 0
    [lA, lB, lC] dABC [(5 : ℚ)] lB (by decide) (by decide) (by decide)

theorem compsOf_get {term_aa : Bool} {labels : List Label} :
    ∀ {ps cs : List (List Label)}, compsOf term_aa labels ps = some cs →
      ∀ i, i < ps.length →
        composition term_aa labels (ps.getD i []) = some (cs.getD i [])
  | [], cs => by intro h i hi; simp at hi
  | p :: ps, cs => by
    intro h i hi
    unfold compsOf at h
    cases hc : composition term_aa labels p with
    | none => rw [hc] at h; exact Option.noConfusion h
    | some c =>
      rw [hc] at h
      cases hr : compsOf term_aa labels ps with
      | none => rw [hr] at h; exact Option.noConfusion h
      | some cs' =>
        rw [hr] at h
        injection h with h
        subst h
        cases i with
        | zero => simpa using hc
        | succ j =>
          simp only [List.getD_cons_succ]
          exact compsOf_get hr j (by simpa using hi)

theorem composition_false_inv {labels tokens pd : List Label}
    (h : composition false labels tokens = some pd) :
    pd = tokens ∧ ∀ x ∈ tokens, x ∈ labels := by
  unfold composition at h
  split at h
  · simp only [Bool.false_eq_true, if_false] at h
    injection h with h
    exact ⟨h.symm, by assumption⟩
  · exact absurd h (by simp)

theorem composition_false_valid {labels tokens : List Label}
    (h : ∀ x ∈ tokens, x ∈ labels) :
    composition false labels tokens = some tokens := by
  unfold composition
  rw [if_pos h]
  rfl

theorem sumOver_isSome {pd : List Label} {aaL : List (Label × ℚ)} :
    ∀ {ks : List Label}, (∀ a ∈ ks, (alookup aaL a).isSome) →
      ∃ s, sumOver pd aaL ks = some s
  | [], _ => ⟨0, rfl⟩
  | a :: ks, h => by
    obtain ⟨v, hv⟩ := Option.isSome_iff_exists.mp (h a (List.mem_cons_self a ks))
    obtain ⟨s, hs⟩ := sumOver_isSome fun b hb => h b (List.mem_cons_of_mem a hb)
    exact ⟨(pd.count a : ℚ) * v + s, by unfold sumOver; rw [hv, hs]⟩

theorem alookup_cons_ne {k : Label} {v : ℚ} {rest : List (Label × ℚ)}
    {a : Label} (h : ¬k = a) : alookup ((k, v) :: rest) a = alookup rest a := by
  show (if k = a then some v else alookup rest a) = alookup rest a
  rw [if_neg h]

theorem dot_cons (x : ℚ) (xs : List ℚ) (y : ℚ) (ys : List ℚ) :
    dot (x :: xs) (y :: ys) = x * y + dot xs ys := by
  simp [dot]

theorem dot_row (f : Label → ℚ) :
    ∀ (l : List Label) (sol : List ℚ), l.Nodup →
      sol.length = l.length + 1 →
      dot (l.map f ++ [1]) sol =
        (l.map fun a =>
          f a * ((alookup (l.zip (sol.take l.length)) a).getD 0)).sum +
          sol.getD l.length 0
  | [], sol, _, hlen => by
    match sol, hlen with
    | [c], _ => simp [dot]
  | a :: t, sol, hnd, hlen => by
    match sol with
    | v :: vs =>
      have hvs : vs.length = t.length + 1 := by simpa using hlen
      obtain ⟨hna, hndt⟩ := List.nodup_cons.mp hnd
      have hzip : (a :: t).zip ((v :: vs).take (a :: t).length) =
          (a, v) :: t.zip (vs.take t.length) := by
        simp
      rw [List.map_cons, List.cons_append, dot_cons,
        dot_row f t vs hndt hvs, hzip]
      have hhead : (alookup ((a, v) :: t.zip (vs.take t.length)) a).getD 0
          = v := by
        unfold alookup
        rw [if_pos rfl]
        rfl
      have htail : ∀ x ∈ t,
          (alookup ((a, v) :: t.zip (vs.take t.length)) x).getD 0 =
            (alookup (t.zip (vs.take t.length)) x).getD 0 := by
        intro x hx
        rw [alookup_cons_ne fun hax => hna (by rw [hax]; exact hx)]
      have hmapeq : (t.map fun x =>
          f x * ((alookup ((a, v) :: t.zip (vs.take t.length)) x).getD 0)) =
          (t.map fun x =>
            f x * ((alookup (t.zip (vs.take t.length)) x).getD 0)) :=
        List.map_congr_left fun x hx => by rw [htail x hx]
      rw [List.map_cons, List.sum_cons, hhead, hmapeq, List.length_cons,
        List.getD_cons_succ]
      ring

theorem sum_tokens {l tokens : List Label} (g : Label → ℚ) (hnd : l.Nodup)
    (hsub : ∀ x ∈ tokens, x ∈ l) :
    (l.map fun a => (tokens.count a : ℚ) * g a).sum = (tokens.map g).sum := by
  have hbr : (l.map fun a => (tokens.count a : ℚ) * g a) =
      (l.map fun a =>
        ((@List.count Label instBEqOfDecidableEq a tokens : ℕ) : ℚ) * g a) :=
    List.map_congr_left fun a _ => by rw [count_beq_bridge]
  have hsubset : tokens.toFinset ⊆ l.toFinset := fun x hx =>
    List.mem_toFinset.mpr (hsub x (List.mem_toFinset.mp hx))
  have hzero : ∀ x ∈ l.toFinset, x ∉ tokens.toFinset →
      ((@List.count Label instBEqOfDecidableEq x tokens : ℕ) : ℚ) * g x = 0 := by
    intro x _ hx
    have h0 : @List.count Label instBEqOfDecidableEq x tokens = 0 := by
      rw [← count_beq_bridge]
      exact List.count_eq_zero.mpr fun hmem => hx (List.mem_toFinset.mpr hmem)
    rw [h0]
    simp
  calc (l.map fun a => (tokens.count a : ℚ) * g a).sum
      = (l.map fun a =>
          ((@List.count Label instBEqOfDecidableEq a tokens : ℕ) : ℚ) *
            g a).sum := by rw [hbr]
    _ = ∑ a ∈ l.toFinset,
          ((@List.count Label instBEqOfDecidableEq a tokens : ℕ) : ℚ) * g a :=
        (List.sum_toFinset _ hnd).symm
    _ = ∑ a ∈ tokens.toFinset,
          ((@List.count Label instBEqOfDecidableEq a tokens : ℕ) : ℚ) * g a :=
        (Finset.sum_subset hsubset hzero).symm
    _ = ∑ a ∈ tokens.toFinset,
          (@List.count Label instBEqOfDecidableEq a tokens) • g a :=
        Finset.sum_congr rfl fun a _ => (nsmul_eq_mul _ _).symm
    _ = (tokens.map g).sum := (Finset.sum_list_map_count tokens g).symm

/-- Counterexample for **C7**.  A terminal-mode sample set (the four
length-two peptides over `{A, B}`) whose linear system — constraint rows
included — is satisfied *exactly* by the solver's solution, yet `predict` on
the very first training sample does not reproduce its target `3`: it fails
outright, because the model contains only terminal-tagged keys, so the
predictor's featurizer alphabet (the model's internal keys) is empty. -/
theorem C7_counterexample :
    compsOf true [lA, lB] [pAA, pAB, pBA, pBB] = some csC7 ∧
    ((matrixOf ln0 0 true csC7).map fun r => dot r solC7) =
      rhsOf true [3, -1, 1, -3] ∧
    solC7.length = (detectedOf csC7).length + 1 ∧
    (get_RCs ln0 solverC7 lr0 [pAA, pAB, pBA, pBB] [3, -1, 1, -3] 0 true
      [lA, lB]).1 = some dC7 ∧
    calculate_RT ln0 pAA dC7 = none :=
  ⟨by decide, by decide, by decide, by decide, by decide⟩

/-- **C7 (amended).** With terminal handling disabled and an alphabet whose
detected labels carry no terminal-marker prefix, whenever the least-squares
solution satisfies every sample equation exactly (the "exactly solvable,
consistent" premise), applying `calculate_RT` with the calibrated model to
each training sequence reproduces the corresponding training target exactly.
(With terminal handling enabled this round trip can fail, see the
counterexample.) -/
theorem C7_round_trip (ln : ℕ → ℚ) (solver : Lstsq) (lr : LinReg)
    (peptides : List (List Label)) (RTs : List ℚ) (lcf : ℚ)
    (labels : List Label) (cs : List (List Label)) (sol : List ℚ)
    (hc : compsOf false labels peptides = some cs)
    (hsol : solver (matrixOf ln lcf false cs) (rhsOf false RTs) = some sol)
    (hlen : sol.length = (detectedOf cs).length + 1)
    (hclean : ∀ a ∈ detectedOf cs,
      startsW ntermL a = false ∧ startsW ctermL a = false)
    (hexact : ∀ i, i < cs.length →
      dot (peptideRow ln lcf (detectedOf cs) (cs.getD i [])) sol =
        RTs.getD i 0) :
    ∃ d, get_RCs ln solver lr peptides RTs lcf false labels = (some d, RTs) ∧
      ∀ i, i < peptides.length →
        calculate_RT ln (peptides.getD i []) d = some (RTs.getD i 0) := by
  have hlt : (detectedOf cs).length < sol.length := by omega
  have hg : sol.get? (detectedOf cs).length =
      some (sol.get ⟨(detectedOf cs).length, hlt⟩) := List.get?_eq_get hlt
  refine ⟨⟨(detectedOf cs).zip (sol.take (detectedOf cs).length),
    sol.get ⟨(detectedOf cs).length, hlt⟩, lcf⟩, ?_, ?_⟩
  · simpa using get_RCs_eq lr hc hsol hg
  · intro i hi
    have hcsl : cs.length = peptides.length := compsOf_length hc
    have hicsl : i < cs.length := by omega
    obtain ⟨hpd_eq, _⟩ := composition_false_inv (compsOf_get hc i hi)
    have htake : (sol.take (detectedOf cs).length).length =
        (detectedOf cs).length := by
      rw [List.length_take]
      omega
    have hkeys : ((detectedOf cs).zip
        (sol.take (detectedOf cs).length)).map Prod.fst = detectedOf cs := by
      apply List.map_fst_zip
      rw [htake]
    have hmem : ∀ x ∈ peptides.getD i [], x ∈ detectedOf cs := by
      intro x hx
      unfold detectedOf
      rw [List.mem_dedup, List.mem_flatten]
      refine ⟨cs.getD i [], ?_, ?_⟩
      · rw [List.getD_eq_getElem cs [] hicsl]
        exact List.getElem_mem hicsl
      · rw [hpd_eq]
        exact hx
    have hterm : termDetect ⟨(detectedOf cs).zip
        (sol.take (detectedOf cs).length),
        sol.get ⟨(detectedOf cs).length, hlt⟩, lcf⟩ = false := by
      unfold termDetect
      rw [show (⟨(detectedOf cs).zip (sol.take (detectedOf cs).length),
          sol.get ⟨(detectedOf cs).length, hlt⟩, lcf⟩ : RCdict).aa =
          (detectedOf cs).zip (sol.take (detectedOf cs).length) from rfl,
        hkeys, List.any_eq_false]
      intro a ha
      simp [(hclean a ha).1, (hclean a ha).2]
    have hik : internalKeys ⟨(detectedOf cs).zip
        (sol.take (detectedOf cs).length),
        sol.get ⟨(detectedOf cs).length, hlt⟩, lcf⟩ = detectedOf cs := by
      unfold internalKeys
      rw [show (⟨(detectedOf cs).zip (sol.take (detectedOf cs).length),
          sol.get ⟨(detectedOf cs).length, hlt⟩, lcf⟩ : RCdict).aa =
          (detectedOf cs).zip (sol.take (detectedOf cs).length) from rfl,
        hkeys]
      rw [List.filter_eq_self]
      intro a ha
      simp [(hclean a ha).1, (hclean a ha).2]
    have hcomp2 : composition false (detectedOf cs) (peptides.getD i []) =
        some (peptides.getD i []) := composition_false_valid hmem
    have hlkp : ∀ a ∈ (peptides.getD i []).dedup,
        (alookup ((detectedOf cs).zip
          (sol.take (detectedOf cs).length)) a).isSome := by
      intro a ha
      apply alookup_isSome_of_mem
      rw [hkeys]
      exact hmem a (List.mem_dedup.mp ha)
    obtain ⟨s, hs⟩ := sumOver_isSome hlkp
    have hcr : calculate_RT ln (peptides.getD i [])
        ⟨(detectedOf cs).zip (sol.take (detectedOf cs).length),
          sol.get ⟨(detectedOf cs).length, hlt⟩, lcf⟩ =
        some (s * (1 + lcf * ln (peptide_length (peptides.getD i []))) +
          sol.get ⟨(detectedOf cs).length, hlt⟩) :=
      calculate_RT_eq (by rw [hterm, hik]; exact hcomp2) hs
    rw [hcr]
    have hsum : s = ((peptides.getD i []).map fun a =>
        ((alookup ((detectedOf cs).zip
          (sol.take (detectedOf cs).length)) a).getD 0)).sum := by
      rw [sumOver_sum hs]
      exact sum_tokens _ (List.nodup_dedup _)
        fun x hx => List.mem_dedup.mpr hx
    have hexact_i := hexact i hicsl
    unfold peptideRow at hexact_i
    rw [hpd_eq] at hexact_i
    rw [dot_row (fun a => ((peptides.getD i []).count a : ℚ) *
        (1 + lcf * ln (peptide_length (peptides.getD i []))))
      (detectedOf cs) sol (List.nodup_dedup _) hlen] at hexact_i
    have hfac : ((detectedOf cs).map fun a =>
        ((peptides.getD i []).count a : ℚ) *
          (1 + lcf * ln (peptide_length (peptides.getD i []))) *
          ((alookup ((detectedOf cs).zip
            (sol.take (detectedOf cs).length)) a).getD 0)).sum =
        (1 + lcf * ln (peptide_length (peptides.getD i []))) *
          ((detectedOf cs).map fun a =>
            ((peptides.getD i []).count a : ℚ) *
              ((alookup ((detectedOf cs).zip
                (sol.take (detectedOf cs).length)) a).getD 0)).sum := by
      rw [← List.sum_map_mul_left]
      exact congrArg List.sum (List.map_congr_left fun a _ => by ring)
    have hnodup : (detectedOf cs).Nodup := by
      unfold detectedOf
      exact List.nodup_dedup _
    rw [hfac, sum_tokens _ hnodup hmem] at hexact_i
    have hgetD : sol.getD (detectedOf cs).length 0 =
        sol.get ⟨(detectedOf cs).length, hlt⟩ := by
      rw [List.getD_eq_getElem sol 0 hlt]
      rfl
    rw [hgetD] at hexact_i
    have hval : s * (1 + lcf * ln (peptide_length (peptides.getD i []))) +
        sol.get ⟨(detectedOf cs).length, hlt⟩ = RTs.getD i 0 := by
      rw [← hexact_i, hsum]
      ring
    rw [hval]

/-- Witness for **C7 (amended)**: the doctest-style system `['A','AA']` with
targets `[1, 2]`, solved exactly by coefficients `A = 1`, `const = 0`;
prediction reproduces both targets. -/
theorem C7_round_trip_witness :
    ∃ d, get_RCs ln0 solver12 lr0 [[lA], [lA, lA]] [1, 2] 0 false [lA] =
        (some d, [1, 2]) ∧
      ∀ i, i < ([[lA], [lA, lA]] : List (List Label)).length →
        calculate_RT ln0 (([[lA], [lA, lA]] : List (List Label)).getD i [])
          d = some (([1, 2] : List ℚ).getD i 0) :=
  C7_round_trip ln0 solver12 lr0 [[lA], [lA, lA]] [1, 2] 0 [lA]
    [[lA], [lA, lA]] [1, 0] (by decide) (by decide) (by decide) (by decide)
    (by
      intro i hi
      have h2 : i < 2 := by simpa using hi
      interval_cases i <;> decide)

/-- Counterexample for **C6**: with the inverted factor range `(1, 0)` the
call does not fail — it returns the empty placeholder dict normally (modelled
as `some none`: a normal return carrying no model). -/
theorem C6_counterexample :
    get_RCs_vary_lcf ln0 solverA lr0 [] [] false (1, 0) [] = some none := by
  decide

/-- **C6 (amended).** For an empty or inverted factor range (`mx ≤ mn`) the
step starts nonpositive, the `while step > 0.1` loop is never entered, and
`get_RCs_vary_lcf` returns the initial empty placeholder dict normally — no
`InvalidRange` (nor any other) failure is raised. -/
theorem C6_inverted_range_placeholder (ln : ℕ → ℚ) (solver : Lstsq)
    (lr : LinReg) (peptides : List (List Label)) (RTs : List ℚ)
    (term_aa : Bool) (mn mx : ℚ) (labels : List Label) (h : mx ≤ mn) :
    get_RCs_vary_lcf ln solver lr peptides RTs term_aa (mn, mx) labels =
      some none := by
  have hguard0 : ¬((1 : ℚ) / 10 < (mx - mn) / 10) := by
    have h1 : (mx - mn) / 10 ≤ 0 :=
      div_nonpos_iff.mpr (Or.inr ⟨by linarith, by norm_num⟩)
    linarith
  have hguard : ¬((1 : ℚ) / 10 < (loopInit mn mx).st) := hguard0
  have hloop : ∀ n, loopFuel ln solver lr peptides RTs term_aa labels n
      (loopInit mn mx) = some (loopInit mn mx) := by
    intro n
    cases n with
    | zero => rfl
    | succ k =>
      unfold loopFuel
      rw [if_neg hguard]
  unfold get_RCs_vary_lcf
  rw [hloop]
  rfl

/-- Witness for **C6 (amended)**: the empty range `(2, 2)`. -/
theorem C6_inverted_range_placeholder_witness :
    get_RCs_vary_lcf ln0 solverA lr0 [] [] false (2, 2) [] = some none :=
  C6_inverted_range_placeholder ln0 solverA lr0 [] [] false 2 2 []
    (le_refl 2)

section LoopLemmas

variable (ln : ℕ → ℚ) (solver : Lstsq) (lr : LinReg)
  (peptides : List (List Label)) (RTs : List ℚ) (term_aa : Bool)
  (labels : List Label)

theorem vary_lcf_eq (mn mx : ℚ) :
    get_RCs_vary_lcf ln solver lr peptides RTs term_aa (mn, mx) labels =
      match loopFuel ln solver lr peptides RTs term_aa labels
          (fuelFor ((mx - mn) / 10)) (loopInit mn mx) with
      | none => none
      | some s' => some s'.best := rfl

theorem loopBody_some {s s' : LoopSt}
    (h : loopBody ln solver lr peptides RTs term_aa labels s = some s') :
    ∃ r d, runGrid ln solver lr peptides RTs term_aa labels
        (arange s.mn s.mx ((s.mx - s.mn) / 10)) (s.best_r, s.best) =
        some (r, some d) ∧
      s' = ⟨d.lcf - s.st, d.lcf + s.st,
        ((d.lcf + s.st) - (d.lcf - s.st)) / 10, r, some d⟩ := by
  unfold loopBody at h
  cases hr : runGrid ln solver lr peptides RTs term_aa labels
      (arange s.mn s.mx ((s.mx - s.mn) / 10)) (s.best_r, s.best) with
  | none => rw [hr] at h; exact Option.noConfusion h
  | some rb =>
    obtain ⟨r, b⟩ := rb
    rw [hr] at h
    cases b with
    | none => simp at h
    | some d =>
      simp only [Option.some.injEq] at h
      exact ⟨r, d, rfl, h.symm⟩

theorem loopBody_st {s s' : LoopSt}
    (h : loopBody ln solver lr peptides RTs term_aa labels s = some s') :
    s'.st = s.st / 5 := by
  obtain ⟨r, d, _, hs'⟩ :=
    loopBody_some ln solver lr peptides RTs term_aa labels h
  rw [hs']
  show ((d.lcf + s.st) - (d.lcf - s.st)) / 10 = s.st / 5
  ring

theorem loopFuel_of_guard_false {s : LoopSt} (h : ¬((1 : ℚ) / 10 < s.st))
    (n : ℕ) : loopFuel ln solver lr peptides RTs term_aa labels n s = some s := by
  cases n with
  | zero => rfl
  | succ k =>
    unfold loopFuel
    rw [if_neg h]

theorem loopFuel_stable :
    ∀ (n : ℕ) (m : ℕ) (s : LoopSt), 10 * s.st ≤ (5 : ℚ) ^ n →
      loopFuel ln solver lr peptides RTs term_aa labels (n + m) s =
        loopFuel ln solver lr peptides RTs term_aa labels n s
  | 0, m, s => by
    intro hst
    have hg : ¬((1 : ℚ) / 10 < s.st) := by
      simp only [pow_zero] at hst
      intro hlt
      linarith
    rw [loopFuel_of_guard_false ln solver lr peptides RTs term_aa labels hg,
      loopFuel_of_guard_false ln solver lr peptides RTs term_aa labels hg]
  | k + 1, m, s => by
    intro hst
    by_cases hg : (1 : ℚ) / 10 < s.st
    · have harith : k + 1 + m = (k + m) + 1 := by omega
      rw [harith]
      unfold loopFuel
      rw [if_pos hg, if_pos hg]
      cases hb : loopBody ln solver lr peptides RTs term_aa labels s with
      | none => rfl
      | some s' =>
        have hst' : 10 * s'.st ≤ (5 : ℚ) ^ k := by
          rw [loopBody_st ln solver lr peptides RTs term_aa labels hb]
          rw [pow_succ] at hst
          linarith
        exact loopFuel_stable k m s' hst'
    · rw [loopFuel_of_guard_false ln solver lr peptides RTs term_aa labels hg,
        loopFuel_of_guard_false ln solver lr peptides RTs term_aa labels hg]

theorem loopFuel_exit :
    ∀ (n : ℕ) (s s' : LoopSt), 10 * s.st ≤ (5 : ℚ) ^ n →
      loopFuel ln solver lr peptides RTs term_aa labels n s = some s' →
      s'.st ≤ 1 / 10
  | 0, s, s' => by
    intro hst hf
    injection hf with hf
    rw [← hf]
    simp only [pow_zero] at hst
    linarith
  | k + 1, s, s' => by
    intro hst hf
    by_cases hg : (1 : ℚ) / 10 < s.st
    · unfold loopFuel at hf
      rw [if_pos hg] at hf
      cases hb : loopBody ln solver lr peptides RTs term_aa labels s with
      | none => rw [hb] at hf; exact Option.noConfusion hf
      | some s₁ =>
        rw [hb] at hf
        have hst' : 10 * s₁.st ≤ (5 : ℚ) ^ k := by
          rw [loopBody_st ln solver lr peptides RTs term_aa labels hb]
          rw [pow_succ] at hst
          linarith
        exact loopFuel_exit k s₁ s' hst' hf
    · unfold loopFuel at hf
      rw [if_neg hg] at hf
      injection hf with hf
      rw [← hf]
      linarith

end LoopLemmas

theorem fuelFor_spec (st : ℚ) : 10 * st ≤ (5 : ℚ) ^ fuelFor st := by
  by_cases h : 10 * st ≤ 1
  · calc 10 * st ≤ 1 := h
      _ ≤ (5 : ℚ) ^ fuelFor st := one_le_pow₀ (by norm_num)
  · push_neg at h
    have hpos : (0 : ℚ) < 10 * st := by linarith
    have hceil : (10 * st) ≤ ((⌈10 * st⌉ : ℤ) : ℚ) := Int.le_ceil _
    have hnn : (0 : ℤ) ≤ ⌈10 * st⌉ := Int.ceil_nonneg (le_of_lt hpos)
    have hn : 10 * st ≤ ((fuelFor st : ℕ) : ℚ) := by
      unfold fuelFor
      rw [show ((⌈10 * st⌉.toNat : ℕ) : ℚ) = ((⌈10 * st⌉ : ℤ) : ℚ) by
        exact_mod_cast congrArg Int.cast (Int.toNat_of_nonneg hnn)]
      exact hceil
    have hpow : ((fuelFor st : ℕ) : ℚ) ≤ 5 ^ fuelFor st := by
      have h5 := Nat.lt_pow_self (by norm_num : 1 < 5) (fuelFor st)
      calc ((fuelFor st : ℕ) : ℚ) ≤ ((5 ^ fuelFor st : ℕ) : ℚ) := by
            exact_mod_cast le_of_lt h5
        _ = 5 ^ fuelFor st := by push_cast; ring
    linarith

theorem fuelFor_pos {st : ℚ} (h : 1 / 10 < st) : 0 < fuelFor st := by
  unfold fuelFor
  have h1 : (1 : ℚ) < 10 * st := by linarith
  have h2 : (1 : ℤ) ≤ ⌈10 * st⌉ := by
    by_contra hc
    push_neg at hc
    have hle : ((⌈10 * st⌉ : ℤ) : ℚ) ≤ 0 := by
      have h0 : ⌈10 * st⌉ ≤ 0 := by omega
      exact_mod_cast h0
    have := Int.le_ceil (10 * st)
    linarith
  omega

/-- **C9.** The optimizer's loop performs finitely many iterations.  The
re-centered interval has width `2·step`, so each executed iteration divides
the step by exactly five (first conjunct); running the loop with fuel
`fuelFor step₀ = ⌈10·step₀⌉` already reaches a fixpoint — any extra fuel
changes nothing, i.e. only finitely many iterations are ever executed
(second conjunct); and on a normal exit the final recomputed step is `≤ 0.1`
and `get_RCs_vary_lcf` returns the best model tracked at that point (third
conjunct). -/
theorem C9_loop_terminates (ln : ℕ → ℚ) (solver : Lstsq) (lr : LinReg)
    (peptides : List (List Label)) (RTs : List ℚ) (term_aa : Bool)
    (labels : List Label) (mn mx : ℚ) :
    (∀ s s', loopBody ln solver lr peptides RTs term_aa labels s = some s' →
      s'.st = s.st / 5) ∧
    (∀ m, loopFuel ln solver lr peptides RTs term_aa labels
        (fuelFor ((mx - mn) / 10) + m) (loopInit mn mx) =
      loopFuel ln solver lr peptides RTs term_aa labels
        (fuelFor ((mx - mn) / 10)) (loopInit mn mx)) ∧
    (∀ s', loopFuel ln solver lr peptides RTs term_aa labels
        (fuelFor ((mx - mn) / 10)) (loopInit mn mx) = some s' →
      s'.st ≤ 1 / 10 ∧
      get_RCs_vary_lcf ln solver lr peptides RTs term_aa (mn, mx) labels =
        some s'.best) := by
  have hst0 : 10 * (loopInit mn mx).st ≤
      (5 : ℚ) ^ fuelFor ((mx - mn) / 10) := by
    show 10 * ((mx - mn) / 10) ≤ _
    exact fuelFor_spec _
  refine ⟨fun s s' h => loopBody_st ln solver lr peptides RTs term_aa labels h,
    fun m => loopFuel_stable ln solver lr peptides RTs term_aa labels _ m _
      hst0,
    fun s' h =>
      ⟨loopFuel_exit ln solver lr peptides RTs term_aa labels _ _ _ hst0 h,
       ?_⟩⟩
  rw [vary_lcf_eq, h]

/-- Witness for **C9**: a concrete run over the range `(0, 20)`; extra fuel
does not change the result, the loop exits with step `2/25 ≤ 0.1`, and the
tracked best model is returned. -/
theorem C9_loop_terminates_witness :
    loopFuel lnLin solverA lr0 [] [] false [] (fuelFor ((20 - 0) / 10) + 3)
        (loopInit 0 20) =
      loopFuel lnLin solverA lr0 [] [] false [] (fuelFor ((20 - 0) / 10))
        (loopInit 0 20) ∧
    loopFuel lnLin solverA lr0 [] [] false [] (fuelFor ((20 - 0) / 10))
        (loopInit 0 20) =
      some ⟨-2 / 5, 2 / 5, 2 / 25, 0, some ⟨[], 0, 0⟩⟩ ∧
    ((⟨-2 / 5, 2 / 5, 2 / 25, 0, some ⟨[], 0, 0⟩⟩ : LoopSt).st ≤ 1 / 10 ∧
      get_RCs_vary_lcf lnLin solverA lr0 [] [] false (0, 20) [] =
        some (⟨-2 / 5, 2 / 5, 2 / 25, 0, some ⟨[], 0, 0⟩⟩ : LoopSt).best) :=
  ⟨(C9_loop_terminates lnLin solverA lr0 [] [] false [] 0 20).2.1 3,
   by decide,
   (C9_loop_terminates lnLin solverA lr0 [] [] false [] 0 20).2.2 _
     (by decide)⟩

theorem get_RCs_fst_some {ln : ℕ → ℚ} {solver : Lstsq} {lr : LinReg}
    {peptides : List (List Label)} {RTs : List ℚ} {lcf : ℚ} {term_aa : Bool}
    {labels : List Label} {d : RCdict}
    (h : (get_RCs ln solver lr peptides RTs lcf term_aa labels).1 = some d) :
    d.lcf = lcf := by
  have hp : get_RCs ln solver lr peptides RTs lcf term_aa labels =
      (some d, (get_RCs ln solver lr peptides RTs lcf term_aa labels).2) := by
    rw [← h]
  obtain ⟨cs, sol, c, _, _, _, hd, _⟩ := get_RCs_some hp
  rw [hd]

theorem evalCand_some {ln : ℕ → ℚ} {solver : Lstsq} {lr : LinReg}
    {peptides : List (List Label)} {RTs : List ℚ} {term_aa : Bool}
    {labels : List Label} {best : ℚ × Option RCdict} {c : ℚ}
    {b' : ℚ × Option RCdict}
    (h : evalCand ln solver lr peptides RTs term_aa labels best c = some b') :
    b' = best ∨ ∃ d, b'.2 = some d ∧
      (get_RCs ln solver lr peptides RTs c term_aa labels).1 = some d := by
  unfold evalCand at h
  cases h1 : (get_RCs ln solver lr peptides RTs c term_aa labels).1 with
  | none => simp only [h1] at h; exact Option.noConfusion h
  | some d =>
    simp only [h1] at h
    cases h2 : predictAll ln d peptides with
    | none => simp only [h2] at h; exact Option.noConfusion h
    | some preds =>
      simp only [h2] at h
      split at h
      · injection h with h
        exact Or.inr ⟨d, by rw [← h], rfl⟩
      · injection h with h
        exact Or.inl h.symm

theorem runGrid_prov {ln : ℕ → ℚ} {solver : Lstsq} {lr : LinReg}
    {peptides : List (List Label)} {RTs : List ℚ} {term_aa : Bool}
    {labels : List Label} :
    ∀ (grid : List ℚ) (b b' : ℚ × Option RCdict),
      runGrid ln solver lr peptides RTs term_aa labels grid b = some b' →
      (∀ d, b.2 = some d →
        (get_RCs ln solver lr peptides RTs d.lcf term_aa labels).1 =
          some d) →
      ∀ d, b'.2 = some d →
        (get_RCs ln solver lr peptides RTs d.lcf term_aa labels).1 = some d
  | [], b, b' => by
    intro h hP
    injection h with h
    rw [← h]
    exact hP
  | c :: rest, b, b' => by
    intro h hP
    unfold runGrid at h
    cases he : evalCand ln solver lr peptides RTs term_aa labels b c with
    | none => rw [he] at h; exact Option.noConfusion h
    | some b₁ =>
      rw [he] at h
      refine runGrid_prov rest b₁ b' h ?_
      rcases evalCand_some he with hb | ⟨d, hd, hg⟩
      · rw [hb]; exact hP
      · intro d' hd'
        rw [hd] at hd'
        injection hd' with hd'
        subst hd'
        rw [get_RCs_fst_some hg]
        exact hg

theorem loopBody_prov {ln : ℕ → ℚ} {solver : Lstsq} {lr : LinReg}
    {peptides : List (List Label)} {RTs : List ℚ} {term_aa : Bool}
    {labels : List Label} {s s' : LoopSt}
    (hP : ∀ d, s.best = some d →
      (get_RCs ln solver lr peptides RTs d.lcf term_aa labels).1 = some d)
    (h : loopBody ln solver lr peptides RTs term_aa labels s = some s') :
    (∀ d, s'.best = some d →
      (get_RCs ln solver lr peptides RTs d.lcf term_aa labels).1 = some d) ∧
      s'.best.isSome := by
  obtain ⟨r, d, hrun, hs'⟩ :=
    loopBody_some ln solver lr peptides RTs term_aa labels h
  have hprov := runGrid_prov _ _ _ hrun hP
  constructor
  · intro d' hd'
    rw [hs'] at hd'
    have hd2 : some d = some d' := hd'
    exact hprov d' hd2
  · rw [hs']
    rfl

theorem loopFuel_prov {ln : ℕ → ℚ} {solver : Lstsq} {lr : LinReg}
    {peptides : List (List Label)} {RTs : List ℚ} {term_aa : Bool}
    {labels : List Label} :
    ∀ (n : ℕ) (s s' : LoopSt),
      (∀ d, s.best = some d →
        (get_RCs ln solver lr peptides RTs d.lcf term_aa labels).1 =
          some d) →
      s.best.isSome →
      loopFuel ln solver lr peptides RTs term_aa labels n s = some s' →
      (∀ d, s'.best = some d →
        (get_RCs ln solver lr peptides RTs d.lcf term_aa labels).1 =
          some d) ∧ s'.best.isSome
  | 0, s, s' => by
    intro hP hs h
    injection h with h
    rw [← h]
    exact ⟨hP, hs⟩
  | n + 1, s, s' => by
    intro hP hs h
    unfold loopFuel at h
    by_cases hg : (1 : ℚ) / 10 < s.st
    · rw [if_pos hg] at h
      cases hb : loopBody ln solver lr peptides RTs term_aa labels s with
      | none => rw [hb] at h; exact Option.noConfusion h
      | some s₁ =>
        rw [hb] at h
        obtain ⟨hP₁, hs₁⟩ := loopBody_prov hP hb
        exact loopFuel_prov n s₁ s' hP₁ hs₁ h
    · rw [if_neg hg] at h
      injection h with h
      rw [← h]
      exact ⟨hP, hs⟩

/-- **C10.** First conjunct: whenever `get_RCs_vary_lcf` returns normally and
its search loop was entered (initial step above the 0.1 tolerance), the
returned value is `some` model that `get_RCs` actually produced at that
model's own `lcf` (one of the evaluated candidates) — never the empty initial
placeholder.  Second conjunct: when the regression's correlation scores are
at least `-1` (the attainable range of a correlation coefficient), the very
first evaluated candidate always displaces the initial empty model, because
the initial best score `-1.1` is strictly below `-1`. -/
theorem C10_returns_calibrated_model (ln : ℕ → ℚ) (solver : Lstsq)
    (lr : LinReg) (peptides : List (List Label)) (RTs : List ℚ)
    (term_aa : Bool) (labels : List Label) :
    (∀ (mn mx : ℚ) (res : Option RCdict),
      get_RCs_vary_lcf ln solver lr peptides RTs term_aa (mn, mx) labels =
        some res →
      1 / 10 < (mx - mn) / 10 →
      ∃ d, res = some d ∧
        (get_RCs ln solver lr peptides RTs d.lcf term_aa labels).1 =
          some d) ∧
    (∀ (c : ℚ) (b' : ℚ × Option RCdict),
      (∀ xs ys, -1 ≤ (lr xs ys).2.2) →
      evalCand ln solver lr peptides RTs term_aa labels (-11 / 10, none) c =
        some b' →
      b'.2.isSome) := by
  constructor
  · intro mn mx res h hstep
    rw [vary_lcf_eq] at h
    cases hf : loopFuel ln solver lr peptides RTs term_aa labels
        (fuelFor ((mx - mn) / 10)) (loopInit mn mx) with
    | none => rw [hf] at h; exact Option.noConfusion h
    | some s' =>
      rw [hf] at h
      injection h with h
      obtain ⟨k, hk⟩ : ∃ k, fuelFor ((mx - mn) / 10) = k + 1 := by
        have := fuelFor_pos hstep
        exact ⟨fuelFor ((mx - mn) / 10) - 1, by omega⟩
      rw [hk] at hf
      unfold loopFuel at hf
      rw [if_pos (show (1 : ℚ) / 10 < (loopInit mn mx).st from hstep)] at hf
      cases hb : loopBody ln solver lr peptides RTs term_aa labels
          (loopInit mn mx) with
      | none => rw [hb] at hf; exact Option.noConfusion hf
      | some s₁ =>
        rw [hb] at hf
        obtain ⟨hP₁, hs₁⟩ := loopBody_prov
          (fun d hd => Option.noConfusion hd) hb
        obtain ⟨hP', hs'⟩ := loopFuel_prov k s₁ s' hP₁ hs₁ hf
        obtain ⟨d, hd⟩ := Option.isSome_iff_exists.mp hs'
        exact ⟨d, by rw [← h, hd], hP' d hd⟩
  · intro c b' hr h
    unfold evalCand at h
    cases h1 : (get_RCs ln solver lr peptides RTs c term_aa labels).1 with
    | none => simp only [h1] at h; exact Option.noConfusion h
    | some d =>
      simp only [h1] at h
      cases h2 : predictAll ln d peptides with
      | none => simp only [h2] at h; exact Option.noConfusion h
      | some preds =>
        simp only [h2] at h
        split at h
        · injection h with h
          rw [← h]
          rfl
        · exfalso
          have hge := hr RTs preds
          have hcontra : ¬((-11 / 10 : ℚ) < (lr RTs preds).2.2) := by
            assumption
          exact hcontra (by linarith)

/-- Witness for **C10**: the concrete run over `(0, 20)` returns the model
calibrated at factor `0`, and the first candidate of a fresh search displaces
the empty placeholder. -/
theorem C10_returns_calibrated_model_witness :
    (∃ d, (some (⟨[(lA, 2)], 0, 0⟩ : RCdict) : Option RCdict) = some d ∧
      (get_RCs lnLin solverA lr0 [[lA], [lA, lA]] [1, 2] d.lcf false
        [lA]).1 = some d) ∧
    ((0 : ℚ), some (⟨[(lA, 2)], 0, 0⟩ : RCdict)).2.isSome :=
  ⟨(C10_returns_calibrated_model lnLin solverA lr0 [[lA], [lA, lA]] [1, 2]
      false [lA]).1 0 20 (some ⟨[(lA, 2)], 0, 0⟩) (by decide) (by norm_num),
   (C10_returns_calibrated_model lnLin solverA lr0 [[lA], [lA, lA]] [1, 2]
      false [lA]).2 0 (0, some ⟨[(lA, 2)], 0, 0⟩)
      (fun xs ys => by norm_num [lr0]) (by decide)⟩

theorem arange_mem {mn mx h c : ℚ} (hc : c ∈ arange mn mx h) :
    ∃ k : ℕ, k < ⌈(mx - mn) / h⌉.toNat ∧ c = mn + (k : ℚ) * h := by
  unfold arange at hc
  rw [List.mem_map] at hc
  obtain ⟨k, hk, hck⟩ := hc
  exact ⟨k, List.mem_range.mp hk, hck.symm⟩

theorem arange_count {mn mx st : ℚ} (h10 : mx - mn = 10 * st)
    (hpos : 0 < st) : ⌈(mx - mn) / ((mx - mn) / 10)⌉.toNat = 10 := by
  have hne : mx - mn ≠ 0 := by
    rw [h10]
    positivity
  have hq : (mx - mn) / ((mx - mn) / 10) = 10 := by
    field_simp
  rw [hq]
  rfl

theorem runGrid_bound {ln : ℕ → ℚ} {solver : Lstsq} {lr : LinReg}
    {peptides : List (List Label)} {RTs : List ℚ} {term_aa : Bool}
    {labels : List Label} {lo' hi' : ℚ} :
    ∀ (grid : List ℚ) (b b' : ℚ × Option RCdict),
      runGrid ln solver lr peptides RTs term_aa labels grid b = some b' →
      (∀ c ∈ grid, lo' ≤ c ∧ c ≤ hi') →
      (∀ d, b.2 = some d → lo' ≤ d.lcf ∧ d.lcf ≤ hi') →
      ∀ d, b'.2 = some d → lo' ≤ d.lcf ∧ d.lcf ≤ hi'
  | [], b, b' => by
    intro h _ hP
    injection h with h
    rw [← h]
    exact hP
  | c :: rest, b, b' => by
    intro h hgrid hP
    unfold runGrid at h
    cases he : evalCand ln solver lr peptides RTs term_aa labels b c with
    | none => rw [he] at h; exact Option.noConfusion h
    | some b₁ =>
      rw [he] at h
      refine runGrid_bound rest b₁ b' h
        (fun x hx => hgrid x (List.mem_cons_of_mem c hx)) ?_
      rcases evalCand_some he with hb | ⟨d, hd, hg⟩
      · rw [hb]; exact hP
      · intro d' hd'
        rw [hd] at hd'
        injection hd' with hd'
        subst hd'
        rw [get_RCs_fst_some hg]
        exact hgrid c (List.mem_cons_self c rest)

theorem loopBody_J {ln : ℕ → ℚ} {solver : Lstsq} {lr : LinReg}
    {peptides : List (List Label)} {RTs : List ℚ} {term_aa : Bool}
    {labels : List Label} {lo hi : ℚ} {s s' : LoopSt}
    (hJ : Jinv lo hi s) (hg : 1 / 10 < s.st)
    (h : loopBody ln solver lr peptides RTs term_aa labels s = some s') :
    Jinv lo hi s' := by
  obtain ⟨h10, hst0, hmn, hmx, hbest⟩ := hJ
  obtain ⟨r, d, hrun, hs'⟩ :=
    loopBody_some ln solver lr peptides RTs term_aa labels h
  have hstpos : 0 < s.st := lt_trans (by norm_num) hg
  have hgrid : ∀ c ∈ arange s.mn s.mx ((s.mx - s.mn) / 10),
      lo - 5 / 4 * ((hi - lo) / 10 - s.st) ≤ c ∧
      c ≤ hi + 5 / 4 * ((hi - lo) / 10 - s.st) := by
    intro c hc
    obtain ⟨k, hk, hck⟩ := arange_mem hc
    rw [arange_count h10 hstpos] at hk
    have hst' : (s.mx - s.mn) / 10 = s.st := by
      rw [h10]
      ring
    rw [hst'] at hck
    have hk9 : (k : ℚ) ≤ 9 := by
      have : k ≤ 9 := by omega
      exact_mod_cast this
    have hk0 : (0 : ℚ) ≤ k := Nat.cast_nonneg k
    constructor
    · rw [hck]
      nlinarith
    · rw [hck]
      nlinarith
  have hdb := runGrid_bound _ _ _ hrun hgrid hbest d rfl
  subst hs'
  have hstep5 : ((d.lcf + s.st) - (d.lcf - s.st)) / 10 = s.st / 5 := by ring
  refine ⟨?_, ?_, ?_, ?_, ?_⟩
  · show (d.lcf + s.st) - (d.lcf - s.st) =
      10 * (((d.lcf + s.st) - (d.lcf - s.st)) / 10)
    ring
  · show 0 ≤ ((d.lcf + s.st) - (d.lcf - s.st)) / 10
    rw [hstep5]
    linarith
  · show lo - 5 / 4 * ((hi - lo) / 10 -
      ((d.lcf + s.st) - (d.lcf - s.st)) / 10) ≤ d.lcf - s.st
    rw [hstep5]
    linarith [hdb.1]
  · show d.lcf + s.st ≤ hi + 5 / 4 * ((hi - lo) / 10 -
      ((d.lcf + s.st) - (d.lcf - s.st)) / 10)
    rw [hstep5]
    linarith [hdb.2]
  · intro d' hd'
    have hd2 : some d = some d' := hd'
    injection hd2 with hd2
    subst hd2
    show lo - 5 / 4 * ((hi - lo) / 10 -
        ((d.lcf + s.st) - (d.lcf - s.st)) / 10) ≤ d.lcf ∧
      d.lcf ≤ hi + 5 / 4 * ((hi - lo) / 10 -
        ((d.lcf + s.st) - (d.lcf - s.st)) / 10)
    rw [hstep5]
    exact ⟨by linarith [hdb.1], by linarith [hdb.2]⟩

theorem loopFuel_J {ln : ℕ → ℚ} {solver : Lstsq} {lr : LinReg}
    {peptides : List (List Label)} {RTs : List ℚ} {term_aa : Bool}
    {labels : List Label} {lo hi : ℚ} :
    ∀ (n : ℕ) (s s' : LoopSt), Jinv lo hi s →
      loopFuel ln solver lr peptides RTs term_aa labels n s = some s' →
      Jinv lo hi s'
  | 0, s, s' => by
    intro hJ h
    injection h with h
    rw [← h]
    exact hJ
  | n + 1, s, s' => by
    intro hJ h
    unfold loopFuel at h
    by_cases hg : (1 : ℚ) / 10 < s.st
    · rw [if_pos hg] at h
      cases hb : loopBody ln solver lr peptides RTs term_aa labels s with
      | none => rw [hb] at h; exact Option.noConfusion h
      | some s₁ =>
        rw [hb] at h
        exact loopFuel_J n s₁ s' (loopBody_J hJ hg hb) h
    · rw [if_neg hg] at h
      injection h with h
      rw [← h]
      exact hJ

/-- Counterexample for **C8**.  Over the closed interval `[0, 20]` with an
adversarial (but well-typed) scoring collaborator whose correlation decreases
in the first predicted value, the returned model's `lcf` is `-2`, outside
`[0, 20]`: the re-centering step `min = best - step` lets the grid walk below
the caller's lower bound. -/
theorem C8_counterexample :
    get_RCs_vary_lcf lnLin solverA lrNeg [[lA], [lA, lA]] [1, 2] false
      (0, 20) [lA] = some (some ⟨[(lA, -2)], 0, -2⟩) ∧
    ¬((0 : ℚ) ≤ (⟨[(lA, -2)], 0, -2⟩ : RCdict).lcf ∧
      (⟨[(lA, -2)], 0, -2⟩ : RCdict).lcf ≤ 20) :=
  ⟨by decide, by decide⟩

/-- **C8 (amended).** The best factor can escape the caller's interval, but
only within the margin the geometric re-centering allows: whenever
`get_RCs_vary_lcf` over `(lo, hi)` with `lo < hi` returns a model `d`, its
length-correction factor satisfies
`lo - (hi - lo)/8 ≤ d.lcf ≤ hi + (hi - lo)/8` (each round re-centers by at
most one current step and steps shrink by a factor five, so the total drift
is below `step₀ · (1 + 1/5 + 1/25 + ...) = (5/4) · (hi - lo)/10`). -/
theorem C8_lcf_in_widened_interval (ln : ℕ → ℚ) (solver : Lstsq)
    (lr : LinReg) (peptides : List (List Label)) (RTs : List ℚ)
    (term_aa : Bool) (labels : List Label) (lo hi : ℚ) (d : RCdict)
    (hlt : lo < hi)
    (h : get_RCs_vary_lcf ln solver lr peptides RTs term_aa (lo, hi) labels =
      some (some d)) :
    lo - (hi - lo) / 8 ≤ d.lcf ∧ d.lcf ≤ hi + (hi - lo) / 8 := by
  rw [vary_lcf_eq] at h
  cases hf : loopFuel ln solver lr peptides RTs term_aa labels
      (fuelFor ((hi - lo) / 10)) (loopInit lo hi) with
  | none => rw [hf] at h; exact Option.noConfusion h
  | some s' =>
    rw [hf] at h
    injection h with h
    have hJ0 : Jinv lo hi (loopInit lo hi) := by
      refine ⟨?_, ?_, ?_, ?_, ?_⟩
      · show hi - lo = 10 * ((hi - lo) / 10)
        ring
      · show 0 ≤ (hi - lo) / 10
        have : (0 : ℚ) ≤ hi - lo := by linarith
        positivity
      · show lo - 5 / 4 * ((hi - lo) / 10 - (hi - lo) / 10) ≤ lo
        ring_nf
        linarith
      · show hi ≤ hi + 5 / 4 * ((hi - lo) / 10 - (hi - lo) / 10)
        ring_nf
        linarith
      · intro d' hd'
        exact Option.noConfusion hd'
    have hJ := loopFuel_J _ _ _ hJ0 hf
    obtain ⟨hb1, hb2⟩ := hJ.2.2.2.2 d h
    have hst' : 0 ≤ s'.st := hJ.2.1
    constructor
    · linarith
    · linarith

/-- Witness for **C8 (amended)**: the escaping run stays within the widened
interval `[0 - 20/8, 20 + 20/8]`. -/
theorem C8_lcf_in_widened_interval_witness :
    (0 : ℚ) - (20 - 0) / 8 ≤ (⟨[(lA, -2)], 0, -2⟩ : RCdict).lcf ∧
      (⟨[(lA, -2)], 0, -2⟩ : RCdict).lcf ≤ 20 + (20 - 0) / 8 :=
  C8_lcf_in_widened_interval lnLin solverA lrNeg [[lA], [lA, lA]] [1, 2]
    false [lA] 0 20 ⟨[(lA, -2)], 0, -2⟩ (by norm_num) (by decide)

end achrom
